import Mathlib

/-!
# Verification of the PDF split/info node core

Shallow embedding of the core logic of `src/nodes/PdfLib/PdfLib.node.ts`:
the page-range parser (`parsePageRanges`), the consecutive-page grouper
(`groupConsecutivePages`), the chunk/range split engine inside `execute`,
the info extractor's page-detail logic, and the per-item batch loop of
`execute` with its continue-on-fail handling.

Machine numbers of the source (JavaScript numbers holding integer values)
are modelled as `Int`; strings as Lean `String`; the external pdf-lib
collaborator (load / copyPages / save) is modelled by recording, for each
produced output, the list of 0-based page indices copied from the source
document together with the human-readable range label — exactly the data
the source computes and passes to the collaborator.
-/

namespace PdfLib

/-! ## JavaScript string primitives

The source manipulates strings with `split`, `trim`, `includes` and
template literals.  These are embedded structurally over the character
list of the string so that every definition evaluates by kernel
reduction. -/

/-- Worker for `String.prototype.split` with a one-character separator:
`cur` is the current field accumulated in reverse. -/
def jsSplitAux (sep : Char) : List Char → List Char → List (List Char)
  | [], cur => [cur.reverse]
  | c :: cs, cur =>
    if c = sep then cur.reverse :: jsSplitAux sep cs []
    else jsSplitAux sep cs (c :: cur)

/-- JavaScript `s.split(sep)` for a one-character separator `sep`
(`"".split(sep)` is `[""]`, adjacent separators yield empty fields). -/
def jsSplit (sep : Char) (s : String) : List String :=
  (jsSplitAux sep s.data []).map (fun cs => String.mk cs)

/-- JavaScript `s.trim()`: remove leading and trailing whitespace. -/
def jsTrim (s : String) : String :=
  String.mk (((s.data.dropWhile Char.isWhitespace).reverse.dropWhile
    Char.isWhitespace).reverse)

/-- JavaScript `s.includes(c)` for a one-character needle. -/
def jsIncludes (c : Char) (s : String) : Bool := s.data.any (fun d => d = c)

/-! ## JavaScript `parseInt` semantics

`parsePageRanges` parses tokens with JavaScript's `parseInt`, which skips
leading whitespace, accepts an optional sign, then reads the longest prefix
of digits (hexadecimal after a `0x`/`0X` prefix) and ignores the rest of
the string; it yields NaN (here `none`) only when no digit is found. -/

/-- Numeric value of a decimal digit character. -/
def digitVal (c : Char) : Nat := c.toNat - '0'.toNat

/-- Is `c` a hexadecimal digit? -/
def isHexDigit (c : Char) : Bool :=
  c.isDigit || ('a' ≤ c && c ≤ 'f') || ('A' ≤ c && c ≤ 'F')

/-- Numeric value of a hexadecimal digit character. -/
def hexVal (c : Char) : Nat :=
  if c.isDigit then c.toNat - '0'.toNat
  else if 'a' ≤ c && c ≤ 'f' then c.toNat - 'a'.toNat + 10
  else c.toNat - 'A'.toNat + 10

/-- Value of a list of decimal digit characters, most significant first. -/
def decDigitsToNat (ds : List Char) : Nat :=
  ds.foldl (fun acc c => acc * 10 + digitVal c) 0

/-- Value of a list of hexadecimal digit characters, most significant first. -/
def hexDigitsToNat (ds : List Char) : Nat :=
  ds.foldl (fun acc c => acc * 16 + hexVal c) 0

/-- Magnitude part of JavaScript `parseInt` (radix auto-detection):
after an optional `0x`/`0X` prefix read hexadecimal digits, otherwise read
the longest prefix of decimal digits; `none` when no digit is found
(JavaScript's NaN). -/
def jsParseIntAbs : List Char → Option Nat
  | '0' :: x :: rest =>
    if x = 'x' ∨ x = 'X' then
      let ds := rest.takeWhile isHexDigit
      if ds.isEmpty then none else some (hexDigitsToNat ds)
    else
      let ds := (('0' : Char) :: x :: rest).takeWhile Char.isDigit
      if ds.isEmpty then none else some (decDigitsToNat ds)
  | cs =>
    let ds := cs.takeWhile Char.isDigit
    if ds.isEmpty then none else some (decDigitsToNat ds)

/-- JavaScript `parseInt(s)` (radix argument omitted): skip leading
whitespace, read an optional sign, then the longest digit prefix;
`none` models NaN. -/
def jsParseInt (s : String) : Option Int :=
  match s.data.dropWhile Char.isWhitespace with
  | '-' :: rest => (jsParseIntAbs rest).map (fun n => -(n : Int))
  | '+' :: rest => (jsParseIntAbs rest).map (fun n => (n : Int))
  | cs => (jsParseIntAbs cs).map (fun n => (n : Int))

/-! ## The range parser (`PdfLib.parsePageRanges`) -/

/-- The two validation failures `parsePageRanges` can report, with the
offending token and the `totalPages` bound (the data interpolated into the
source's error message). -/
inductive ParseError where
  | invalidRange (token : String) (totalPages : Int)
  | invalidPage (token : String) (totalPages : Int)
deriving DecidableEq, Repr

/-- The exact error message string the source builds for each failure. -/
def ParseError.message : ParseError → String
  | .invalidRange t tp =>
      "Invalid page range: " ++ t ++ ". Pages must be between 1 and " ++ toString tp
  | .invalidPage t tp =>
      "Invalid page number: " ++ t ++ ". Pages must be between 1 and " ++ toString tp

/-- The loop body `for (let i = start; i <= end; i++) pages.push(i)`:
the list `[s, s+1, ..., e]` (empty when `e < s`). -/
def intRangeList (s e : Int) : List Int :=
  (List.range (e - s + 1).toNat).map (fun (k : Nat) => s + (k : Int))

/-- One iteration of the `for (const range of ranges)` loop of
`parsePageRanges`: validate a single (already trimmed) token and expand it
to the page numbers it pushes. -/
def parseToken (range : String) (totalPages : Int) : Except ParseError (List Int) :=
  if jsIncludes '-' range then
    let parts := (jsSplit '-' range).map (fun n => jsParseInt (jsTrim n))
    match parts.getD 0 none, parts.getD 1 none with
    | some s, some e =>
      if s < 1 ∨ e > totalPages ∨ s > e then
        .error (.invalidRange range totalPages)
      else
        .ok (intRangeList s e)
    | _, _ => .error (.invalidRange range totalPages)
  else
    match jsParseInt range with
    | none => .error (.invalidPage range totalPages)
    | some p =>
      if p < 1 ∨ p > totalPages then .error (.invalidPage range totalPages)
      else .ok [p]

/-- The whole token loop: accumulate the pages pushed by each token,
stopping at the first invalid token. -/
def parseTokens (tokens : List String) (totalPages : Int) : Except ParseError (List Int) :=
  match tokens with
  | [] => .ok []
  | t :: ts =>
    match parseToken t totalPages with
    | .error e => .error e
    | .ok ps =>
      match parseTokens ts totalPages with
      | .error e => .error e
      | .ok rest => .ok (ps ++ rest)

/-- `[...new Set(pages)]`: drop duplicates keeping the first occurrence of
each value, as a JavaScript `Set` does. `seen` holds the values already
emitted. -/
def setDedupAux : List Int → List Int → List Int
  | [], _ => []
  | x :: xs, seen =>
    if x ∈ seen then setDedupAux xs seen else x :: setDedupAux xs (x :: seen)

/-- `[...new Set(pages)]` starting from an empty set. -/
def setDedup (l : List Int) : List Int := setDedupAux l []

/-- `PdfLib.parsePageRanges(rangesString, totalPages)`: split on `,`, trim
each token, validate and expand every token, then
`[...new Set(pages)].sort((a, b) => a - b)` — deduplicate and sort
ascending. -/
def parsePageRanges (rangesString : String) (totalPages : Int) :
    Except ParseError (List Int) :=
  (parseTokens ((jsSplit ',' rangesString).map jsTrim) totalPages).map
    (fun pages => List.insertionSort (· ≤ ·) (setDedup pages))

/-! ## The grouper (`PdfLib.groupConsecutivePages`) -/

/-- The scan loop of `groupConsecutivePages`: `prev` is the previously
seen value (`pages[i-1]`), `cur` the group currently being built,
`groups` the groups already closed.  A value extends the current group
exactly when it equals the previous value plus one. -/
def groupGo : List Int → Int → List Int → List (List Int) → List (List Int)
  | [], _, cur, groups => groups ++ [cur]
  | x :: xs, prev, cur, groups =>
    if x = prev + 1 then groupGo xs x (cur ++ [x]) groups
    else groupGo xs x [x] (groups ++ [cur])

/-- `PdfLib.groupConsecutivePages(pages)`: collapse a list of page numbers
into maximal runs of consecutive integers. -/
def groupConsecutivePages : List Int → List (List Int)
  | [] => []
  | p :: rest => groupGo rest p [p] []

/-- Two adjacent groups are numerically non-adjacent: the head of the
second is not the last of the first plus one.  Together with each group
being a consecutive run, this states that the runs are maximal. -/
def boundaryOk (g h : List Int) : Prop :=
  ∀ a ∈ g.getLast?, ∀ b ∈ h.head?, b ≠ a + 1

/-! ## The split engine (`execute`, case `'split'`)

An output document is modelled by the data the source hands to the
external pdf-lib collaborator: the 0-based indices of the pages copied
from the source document (in copy order) and the `pageRange` label. -/

/-- One output of the split engine: the 0-based source-page indices copied
into the new document, and its `pageRange` label. -/
structure PdfChunk where
  pages : List Int
  label : String
deriving DecidableEq, Repr

/-- The body of the chunk loop at lower bound `i`: copy pages
`i, i+1, ..., min(i+chunkSize, totalPages)-1`
(`Array.from({length: end - i}, (_, idx) => i + idx)`) and label the
output `` `${i + 1}-${end}` ``. -/
def mkChunk (totalPages i chunkSize : Int) : PdfChunk :=
  let e := min (i + chunkSize) totalPages
  { pages := (List.range (e - i).toNat).map (fun (k : Nat) => i + (k : Int))
    label := toString (i + 1) ++ "-" ++ toString e }

/-- The loop `for (let i = 0; i < totalPages; i += chunkSize) {...}`.
The loop is not structurally recursive (with `chunkSize ≤ 0` it never
terminates), so it is embedded with explicit fuel: `none` means the loop
was still running when the fuel ran out. -/
def chunkLoop (totalPages chunkSize : Int) :
    Nat → Int → List PdfChunk → Option (List PdfChunk)
  | 0, _, _ => none
  | fuel + 1, i, acc =>
    if i < totalPages then
      chunkLoop totalPages chunkSize fuel (i + chunkSize)
        (acc ++ [mkChunk totalPages i chunkSize])
    else some acc

/-- Chunk-mode splitting (`splitMode === 'chunkSize'`): run the chunk loop
from `i = 0` with an empty accumulator.  `totalPages.toNat + 1` units of
fuel are enough for every positive `chunkSize` (proved below); for
`chunkSize ≤ 0` the loop exhausts any amount of fuel (also proved below),
so the result is `none`. -/
def splitByChunks (totalPages chunkSize : Int) : Option (List PdfChunk) :=
  chunkLoop totalPages chunkSize (totalPages.toNat + 1) 0 []

/-- Claim-side description of chunk mode, following the specification's
words: there are `ceil(totalPages / chunkSize)` outputs and the `k`-th
(0-based) covers the window of `chunkSize` pages starting at page
`k * chunkSize`, the final window possibly shorter, labeled with 1-based
inclusive bounds. -/
def chunkWindows (totalPages chunkSize : Int) : List PdfChunk :=
  (List.range ((totalPages.toNat + chunkSize.toNat - 1) / chunkSize.toNat)).map
    (fun (k : Nat) => mkChunk totalPages ((k : Int) * chunkSize) chunkSize)

/-- The sequence of chunks the chunk loop produces from lower bound `i`
onwards, with the fuel argument stripped: `n` bounds the number of
remaining iterations. -/
def windowsFrom (totalPages chunkSize : Int) : Nat → Int → List PdfChunk
  | 0, _ => []
  | n + 1, i =>
    if i < totalPages then
      mkChunk totalPages i chunkSize ::
        windowsFrom totalPages chunkSize n (i + chunkSize)
    else []

/-- One output of range-mode splitting for a page group: 1-based page
numbers are converted to 0-based indices
(`group.map((page) => page - 1)`), and the label is `` `${group[0]}` ``
for a singleton group, else
`` `${group[0]}-${group[group.length - 1]}` ``. -/
def mkRangeChunk (group : List Int) : PdfChunk :=
  { pages := group.map (fun p => p - 1)
    label :=
      if group.length = 1 then toString group.headI
      else toString group.headI ++ "-" ++ toString group.getLastI }

/-- Range-mode splitting (`splitMode === 'pageRanges'`): parse and
validate the ranges string (aborting on a validation error before any
output document is created), group the pages into consecutive runs, and
produce one output document per group. -/
def splitByRanges (pageRangesString : String) (totalPages : Int) :
    Except ParseError (List PdfChunk) :=
  (parsePageRanges pageRangesString totalPages).map
    (fun pages => (groupConsecutivePages pages).map mkRangeChunk)

/-! ## The info extractor (`execute`, case `'getInfo'`)

The external document object is modelled by its observable behaviour:
the page count, and for the page collection the outcome of each accessor
the source calls, where `none` models an accessor that throws.  Page
dimensions are JavaScript numbers carrying PDF user-space sizes; they are
embedded as rationals, which supports `Math.round(x * 100) / 100`
exactly. -/

/-- A page of the loaded document: `size` is the result of
`page.getSize()` (`none` = the call throws), `rot` the result of
`page.getRotation().angle` (`none` = the call throws). -/
structure PageModel where
  size : Option (ℚ × ℚ)
  rot : Option Int
deriving DecidableEq, Repr

/-- A loaded document: its page count, and the result of
`pdfDoc.getPages()` (`none` = the call throws). -/
structure PdfDocModel where
  pageCount : Nat
  pagesResult : Option (List PageModel)
deriving DecidableEq, Repr

/-- One entry of the `pageDetails` array built by `getInfo`. -/
structure PageInfoRec where
  pageNumber : Nat
  width : ℚ
  height : ℚ
  orientation : String
  rotation : Int
deriving DecidableEq, Repr

/-- `Math.round`: round half-up to the nearest integer. -/
def jsRound (q : ℚ) : Int := ⌊q + 1 / 2⌋

/-- The fallback record built when inspecting a page fails
(`width: 612, height: 792, orientation: 'portrait', rotation: 0`). -/
def defaultPageRec (pageNumber : Nat) : PageInfoRec :=
  { pageNumber := pageNumber
    width := 612
    height := 792
    orientation := "portrait"
    rotation := 0 }

/-- The body of `pages.map((page, index) => ...)`: on success, record the
rounded size, the orientation (`landscape` iff `width > height`) and the
rotation (`0` when `getRotation` throws); when `getSize` throws, fall back
to the default record for this page. -/
def pageRecOf (index : Nat) (p : PageModel) : PageInfoRec :=
  match p.size with
  | none => defaultPageRec (index + 1)
  | some (w, h) =>
    { pageNumber := index + 1
      width := (jsRound (w * 100) : ℚ) / 100
      height := (jsRound (h * 100) : ℚ) / 100
      orientation := if w > h then "landscape" else "portrait"
      rotation := p.rot.getD 0 }

/-- `pages.map((page, index) => ...)` with explicit start index. -/
def mapWithIndex (f : Nat → PageModel → PageInfoRec) :
    Nat → List PageModel → List PageInfoRec
  | _, [] => []
  | i, p :: ps => f i p :: mapWithIndex f (i + 1) ps

/-- The `pageDetails` array built by `getInfo`: map the page collection
through per-page inspection; when `getPages()` itself throws, build
`Array.from({length: pageCount}, ...)` of default records instead. -/
def extractPageInfo (doc : PdfDocModel) : List PageInfoRec :=
  match doc.pagesResult with
  | some ps => mapWithIndex pageRecOf 0 ps
  | none => (List.range doc.pageCount).map (fun i => defaultPageRec (i + 1))

/-- The claimed part of the `getInfo` result: the always-present page
count and the `pageDetails` array. -/
structure DocInfo where
  pageCount : Nat
  pageDetails : List PageInfoRec
deriving DecidableEq, Repr

/-- The `getInfo` operation, restricted to the fields the claims are
about. -/
def extractInfo (doc : PdfDocModel) : DocInfo :=
  { pageCount := doc.pageCount, pageDetails := extractPageInfo doc }

/-! ## The batch loop of `execute`

`execute` iterates over the input items; for each item it resolves the
binary payload, loads the document, dispatches on the operation and
pushes the produced records onto `returnData`.  A thrown error is either
turned into an inline error record (`continueOnFail()`) or rethrown as a
`NodeOperationError` carrying `itemIndex`. -/

/-- One input item, modelled by the data `execute` reads from it:
whether the requested binary property is present, whether the PDF loads
(from either transport), the loaded document, and the node parameters. -/
structure WorkItem where
  binaryPropertyName : String
  hasBinary : Bool
  loadOk : Bool
  doc : PdfDocModel
  operation : String
  splitMode : String
  chunkSize : Int
  pageRanges : String
deriving DecidableEq, Repr

/-- A record pushed onto `returnData` for one item. -/
inductive OutputRec where
  | info (d : DocInfo)
  | split (chunks : List PdfChunk) (mode : String)
  | errorRec (msg : String)
deriving DecidableEq, Repr

/-- The `try` body of the item loop: the records this item pushes, or the
message of the error it throws.  The outer `Option` is the fuel of the
chunk loop: `none` means the chunk loop ran forever (`chunkSize ≤ 0`).
An operation that is neither `'getInfo'` nor `'split'` falls through the
`switch` and pushes nothing. -/
def processItem (it : WorkItem) : Option (Except String (List OutputRec)) :=
  if ¬ it.hasBinary then
    some (.error ("No binary data property '" ++ it.binaryPropertyName ++
      "' found on item"))
  else if ¬ it.loadOk then
    some (.error "Failed to load PDF from both filesystem and binary data")
  else if it.operation = "getInfo" then
    some (.ok [.info (extractInfo it.doc)])
  else if it.operation = "split" then
    let totalPages : Int := it.doc.pageCount
    if it.splitMode = "chunkSize" then
      match splitByChunks totalPages it.chunkSize with
      | none => none
      | some chunks => some (.ok [.split chunks "chunkSize"])
    else if it.splitMode = "pageRanges" then
      match splitByRanges it.pageRanges totalPages with
      | .error e => some (.error e.message)
      | .ok chunks => some (.ok [.split chunks "pageRanges"])
    else some (.ok [.split [] it.splitMode])
  else some (.ok [])

/-- The item loop over the (index, item) pairs not yet processed:
on an item error, push an inline error record and continue when
`continueOnFail` holds, otherwise abort with the error message paired
with the item's index.  `none` propagates a never-terminating chunk
loop. -/
def execGo (continueOnFail : Bool) :
    List (Nat × WorkItem) → List OutputRec →
    Option (Except (Nat × String) (List OutputRec))
  | [], acc => some (.ok acc)
  | (idx, it) :: rest, acc =>
    match processItem it with
    | none => none
    | some (.ok outs) => execGo continueOnFail rest (acc ++ outs)
    | some (.error e) =>
      if continueOnFail then execGo continueOnFail rest (acc ++ [.errorRec e])
      else some (.error (idx, e))

/-- The whole `execute` batch: process the items in order, with their
0-based indices. -/
def executeModel (continueOnFail : Bool) (items : List WorkItem) :
    Option (Except (Nat × String) (List OutputRec)) :=
  execGo continueOnFail (List.enumFrom 0 items) []

/-- Claim-side description of what one item contributes to `returnData`
when the batch runs with `continueOnFail`: its own records on success,
one inline error record on failure. -/
def itemOutputs (it : WorkItem) : List OutputRec :=
  match processItem it with
  | some (.ok outs) => outs
  | some (.error e) => [.errorRec e]
  | none => []

/-- A well-formed item requesting `getInfo` on a 1-page document. -/
def sampleInfoItem : WorkItem :=
  ⟨"data", true, true, ⟨1, none⟩, "getInfo", "chunkSize", 1, "1"⟩

/-- An item whose requested binary property is missing. -/
def sampleNoBinaryItem : WorkItem :=
  ⟨"data", false, true, ⟨1, none⟩, "getInfo", "chunkSize", 1, "1"⟩

/-- An item with an unrecognized operation and a missing binary payload:
the missing-binary check fires before the operation dispatch, so the item
is not silently skipped. -/
def unknownOpNoBinaryItem : WorkItem :=
  ⟨"data", false, true, ⟨1, none⟩, "merge", "chunkSize", 1, "1"⟩

/-- An item with an unrecognized operation whose binary payload is
present and loads. -/
def unknownOpItem : WorkItem :=
  ⟨"data", true, true, ⟨1, none⟩, "merge", "chunkSize", 1, "1"⟩

/-! ## Lemmas about the range parser -/

theorem intRangeList_mem {s e x : Int} (hx : x ∈ intRangeList s e) :
    s ≤ x ∧ x ≤ e := by
  simp only [intRangeList, List.mem_map, List.mem_range] at hx
  obtain ⟨k, hk, rfl⟩ := hx
  omega

theorem parseToken_ok_bounds {t : String} {tp : Int} {ps : List Int}
    (h : parseToken t tp = Except.ok ps) : ∀ x ∈ ps, 1 ≤ x ∧ x ≤ tp := by
  intro x hx
  simp only [parseToken] at h
  split at h
  · split at h
    · rename_i s e _
      split at h
      · exact absurd h (by simp)
      · rename_i hcond
        injection h with h
        subst h
        have hb := intRangeList_mem hx
        push_neg at hcond
        omega
    · exact absurd h (by simp)
  · split at h
    · exact absurd h (by simp)
    · rename_i p _
      split at h
      · exact absurd h (by simp)
      · rename_i hcond
        injection h with h
        subst h
        push_neg at hcond
        simp only [List.mem_singleton] at hx
        omega

theorem parseTokens_ok_bounds : ∀ (ts : List String) (tp : Int) (ps : List Int),
    parseTokens ts tp = Except.ok ps → ∀ x ∈ ps, 1 ≤ x ∧ x ≤ tp := by
  intro ts
  induction ts with
  | nil =>
    intro tp ps h x hx
    simp only [parseTokens] at h
    injection h with h
    subst h
    simp at hx
  | cons t ts ih =>
    intro tp ps h x hx
    simp only [parseTokens] at h
    rcases h1 : parseToken t tp with e | ps1 <;> rw [h1] at h
    · exact absurd h (by simp)
    · rcases h2 : parseTokens ts tp with e2 | ps2 <;> rw [h2] at h
      · exact absurd h (by simp)
      · injection h with h
        subst h
        rcases List.mem_append.mp hx with h3 | h3
        · exact parseToken_ok_bounds h1 x h3
        · exact ih tp ps2 h2 x h3

theorem mem_setDedupAux : ∀ (l seen : List Int) (x : Int),
    x ∈ setDedupAux l seen ↔ x ∈ l ∧ x ∉ seen := by
  intro l
  induction l with
  | nil => simp [setDedupAux]
  | cons a l ih =>
    intro seen x
    simp only [setDedupAux]
    by_cases ha : a ∈ seen
    · rw [if_pos ha, ih]
      constructor
      · rintro ⟨h1, h2⟩
        exact ⟨List.mem_cons_of_mem a h1, h2⟩
      · rintro ⟨h1, h2⟩
        rcases List.mem_cons.mp h1 with h3 | h3
        · exact absurd (h3 ▸ ha) h2
        · exact ⟨h3, h2⟩
    · rw [if_neg ha]
      constructor
      · intro h1
        rcases List.mem_cons.mp h1 with h3 | h3
        · exact ⟨h3 ▸ List.mem_cons_self a l, h3 ▸ ha⟩
        · have h4 := (ih (a :: seen) x).mp h3
          refine ⟨List.mem_cons_of_mem a h4.1, fun hc => h4.2 ?_⟩
          exact List.mem_cons_of_mem a hc
      · rintro ⟨h1, h2⟩
        by_cases hxa : x = a
        · exact hxa ▸ List.mem_cons_self a _
        · rcases List.mem_cons.mp h1 with h3 | h3
          · exact absurd h3 hxa
          · refine List.mem_cons_of_mem a ((ih (a :: seen) x).mpr ⟨h3, ?_⟩)
            intro hc
            rcases List.mem_cons.mp hc with h4 | h4
            · exact hxa h4
            · exact h2 h4

theorem setDedupAux_nodup : ∀ (l seen : List Int), (setDedupAux l seen).Nodup := by
  intro l
  induction l with
  | nil => intro seen; simp [setDedupAux]
  | cons a l ih =>
    intro seen
    simp only [setDedupAux]
    by_cases ha : a ∈ seen
    · rw [if_pos ha]; exact ih seen
    · rw [if_neg ha]
      refine List.nodup_cons.mpr ⟨?_, ih _⟩
      intro hmem
      exact ((mem_setDedupAux l (a :: seen) a).mp hmem).2 (List.mem_cons_self a seen)

theorem setDedup_nodup (l : List Int) : (setDedup l).Nodup := setDedupAux_nodup l []

theorem mem_setDedup {l : List Int} {x : Int} : x ∈ setDedup l ↔ x ∈ l := by
  rw [setDedup, mem_setDedupAux]
  simp

theorem parsePageRanges_ok {s : String} {tp : Int} {l : List Int}
    (h : parsePageRanges s tp = Except.ok l) :
    (∀ x ∈ l, 1 ≤ x ∧ x ≤ tp) ∧ List.Chain' (· < ·) l ∧ l.Nodup := by
  unfold parsePageRanges at h
  rcases h1 : parseTokens ((jsSplit ',' s).map jsTrim) tp with e | ps <;>
    rw [h1] at h
  · exact absurd h (by simp [Except.map])
  · simp only [Except.map] at h
    injection h with h
    have hnd : l.Nodup := by
      subst h
      exact ((List.perm_insertionSort _ _).nodup_iff).mpr (setDedup_nodup ps)
    have hsorted : List.Sorted (· ≤ ·) l := by
      subst h
      exact List.sorted_insertionSort _ _
    refine ⟨?_, ?_, hnd⟩
    · intro x hx
      have hx2 : x ∈ setDedup ps := ((List.perm_insertionSort _ _).mem_iff).mp (h ▸ hx)
      exact parseTokens_ok_bounds _ tp ps h1 x (mem_setDedup.mp hx2)
    · rw [List.chain'_iff_pairwise]
      exact (List.Pairwise.and hsorted hnd).imp (fun hab => lt_of_le_of_ne hab.1 hab.2)

/-- C1: for every range specification accepted by `parsePageRanges` and
every `totalPages`, the returned page list contains only values within
`[1, totalPages]`, is strictly ascending, and has no duplicates; in
particular `parsePageRanges "1-3,5,7-10" 10` returns
`[1, 2, 3, 5, 7, 8, 9, 10]`. -/
theorem parsePageRanges_valid :
    (∀ (s : String) (tp : Int) (l : List Int),
      parsePageRanges s tp = Except.ok l →
      (∀ x ∈ l, 1 ≤ x ∧ x ≤ tp) ∧ List.Chain' (· < ·) l ∧ l.Nodup) ∧
    parsePageRanges "1-3,5,7-10" 10 = Except.ok [1, 2, 3, 5, 7, 8, 9, 10] :=
  ⟨fun _ _ _ h => parsePageRanges_ok h, by rfl⟩

/-- Witness for C1: the general theorem applied to the concrete input
`"1-3,5,7-10"` with 10 total pages. -/
theorem parsePageRanges_valid_witness :
    List.Chain' (· < ·) ([1, 2, 3, 5, 7, 8, 9, 10] : List Int) ∧
    ([1, 2, 3, 5, 7, 8, 9, 10] : List Int).Nodup :=
  (parsePageRanges_valid.1 "1-3,5,7-10" 10 [1, 2, 3, 5, 7, 8, 9, 10] (by rfl)).2

/-! ## Lemmas about the grouper -/

theorem groupGo_flatten : ∀ (xs : List Int) (prev : Int) (cur : List Int)
    (groups : List (List Int)),
    (groupGo xs prev cur groups).flatten = groups.flatten ++ cur ++ xs := by
  intro xs
  induction xs with
  | nil => intro prev cur groups; simp [groupGo]
  | cons x xs ih =>
    intro prev cur groups
    simp only [groupGo]
    by_cases h : x = prev + 1
    · rw [if_pos h, ih]
      simp
    · rw [if_neg h, ih]
      simp

theorem groupGo_runs : ∀ (xs : List Int) (prev : Int) (cur : List Int)
    (groups : List (List Int)),
    (∀ g ∈ groups, g ≠ [] ∧ List.Chain' (fun a b => b = a + 1) g) →
    cur ≠ [] → List.Chain' (fun a b => b = a + 1) cur →
    cur.getLast? = some prev →
    ∀ g ∈ groupGo xs prev cur groups,
      g ≠ [] ∧ List.Chain' (fun a b => b = a + 1) g := by
  intro xs
  induction xs with
  | nil =>
    intro prev cur groups hg hne hch _ g hgmem
    simp only [groupGo] at hgmem
    rcases List.mem_append.mp hgmem with h | h
    · exact hg g h
    · rw [List.mem_singleton] at h
      exact h ▸ ⟨hne, hch⟩
  | cons x xs ih =>
    intro prev cur groups hg hne hch hlast g hgmem
    simp only [groupGo] at hgmem
    by_cases h : x = prev + 1
    · rw [if_pos h] at hgmem
      refine ih x (cur ++ [x]) groups hg (by simp) ?_ (by simp) g hgmem
      rw [List.chain'_append]
      refine ⟨hch, List.chain'_singleton x, ?_⟩
      intro a ha b hb
      rw [hlast, Option.mem_def, Option.some_inj] at ha
      simp only [List.head?_cons, Option.mem_def, Option.some_inj] at hb
      omega
    · rw [if_neg h] at hgmem
      refine ih x [x] (groups ++ [cur]) ?_ (by simp)
        (List.chain'_singleton x) (by simp) g hgmem
      intro g2 hg2
      rcases List.mem_append.mp hg2 with h2 | h2
      · exact hg g2 h2
      · rw [List.mem_singleton] at h2
        exact h2 ▸ ⟨hne, hch⟩

theorem groupGo_boundaries : ∀ (xs : List Int) (prev : Int) (cur : List Int)
    (groups : List (List Int)),
    cur ≠ [] →
    cur.getLast? = some prev →
    List.Chain' boundaryOk (groups ++ [cur]) →
    List.Chain' boundaryOk (groupGo xs prev cur groups) := by
  intro xs
  induction xs with
  | nil =>
    intro prev cur groups _ _ hch
    simpa [groupGo] using hch
  | cons x xs ih =>
    intro prev cur groups hne hlast hch
    simp only [groupGo]
    by_cases h : x = prev + 1
    · rw [if_pos h]
      refine ih x (cur ++ [x]) groups (by simp) (by simp) ?_
      rw [List.chain'_append] at hch ⊢
      refine ⟨hch.1, List.chain'_singleton _, ?_⟩
      intro g hg b hb
      rw [List.head?_cons, Option.mem_def, Option.some_inj] at hb
      subst hb
      obtain ⟨c, cs, rfl⟩ := List.exists_cons_of_ne_nil hne
      intro a ha
      have := hch.2.2 g hg (c :: cs) (by simp)
      simp only [List.cons_append, List.head?_cons] at *
      exact this a ha
    · rw [if_neg h]
      refine ih x [x] (groups ++ [cur]) (by simp) (by simp) ?_
      rw [List.chain'_append]
      refine ⟨hch, List.chain'_singleton _, ?_⟩
      intro g hg b hb
      rw [List.getLast?_concat, Option.mem_def, Option.some_inj] at hg
      subst hg
      rw [List.head?_cons, Option.mem_def, Option.some_inj] at hb
      subst hb
      intro a ha b2 hb2
      rw [hlast, Option.mem_def, Option.some_inj] at ha
      rw [List.head?_cons, Option.mem_def, Option.some_inj] at hb2
      omega

/-- C3: `groupConsecutivePages [] = []`; for every strictly ascending
input, the concatenation of the returned groups equals the input, each
group is a nonempty run of consecutive integers, and each run is maximal
(adjacent groups are numerically non-adjacent); in particular
`groupConsecutivePages [1,2,3,5,7,8,9,10] = [[1,2,3],[5],[7,8,9,10]]`. -/
theorem groupConsecutivePages_spec :
    groupConsecutivePages [] = [] ∧
    (∀ l : List Int, List.Chain' (· < ·) l →
      (groupConsecutivePages l).flatten = l ∧
      (∀ g ∈ groupConsecutivePages l,
        g ≠ [] ∧ List.Chain' (fun a b => b = a + 1) g) ∧
      List.Chain' boundaryOk (groupConsecutivePages l)) ∧
    groupConsecutivePages [1, 2, 3, 5, 7, 8, 9, 10] =
      [[1, 2, 3], [5], [7, 8, 9, 10]] := by
  refine ⟨rfl, ?_, by rfl⟩
  intro l _
  cases l with
  | nil => simp [groupConsecutivePages]
  | cons p rest =>
    refine ⟨?_, ?_, ?_⟩
    · rw [groupConsecutivePages, groupGo_flatten]
      simp
    · exact groupGo_runs rest p [p] [] (by simp) (by simp)
        (List.chain'_singleton p) (by simp)
    · exact groupGo_boundaries rest p [p] [] (by simp) (by simp)
        (by simp)

/-- Witness for C3: the grouping of the concrete ascending list
`[1,2,3,5,7,8,9,10]` satisfies the proved properties. -/
theorem groupConsecutivePages_spec_witness :
    (groupConsecutivePages [1, 2, 3, 5, 7, 8, 9, 10]).flatten =
      [1, 2, 3, 5, 7, 8, 9, 10] ∧
    List.Chain' boundaryOk (groupConsecutivePages [1, 2, 3, 5, 7, 8, 9, 10]) :=
  ⟨(groupConsecutivePages_spec.2.1 [1, 2, 3, 5, 7, 8, 9, 10]
      (by simp [List.chain'_cons])).1,
   (groupConsecutivePages_spec.2.1 [1, 2, 3, 5, 7, 8, 9, 10]
      (by simp [List.chain'_cons])).2.2⟩

/-! ## Lemmas about chunk-mode splitting -/

theorem chunkLoop_eq_windowsFrom (tp c : Int) (_hc : 1 ≤ c) :
    ∀ (n fuel : Nat) (i : Int) (acc : List PdfChunk),
      n < fuel → tp ≤ i + (n : Int) * c →
      chunkLoop tp c fuel i acc = some (acc ++ windowsFrom tp c n i) := by
  intro n
  induction n with
  | zero =>
    intro fuel i acc hf htp
    cases fuel with
    | zero => omega
    | succ f =>
      simp only [chunkLoop, windowsFrom]
      rw [if_neg (by push_cast at htp; omega)]
      simp
  | succ n ih =>
    intro fuel i acc hf htp
    have hsplit : ((n + 1 : Nat) : Int) * c = (n : Int) * c + c := by
      push_cast
      ring
    rw [hsplit] at htp
    cases fuel with
    | zero => omega
    | succ f =>
      simp only [chunkLoop, windowsFrom]
      by_cases h : i < tp
      · rw [if_pos h, if_pos h]
        rw [ih f (i + c) (acc ++ [mkChunk tp i c]) (by omega) (by omega)]
        simp
      · rw [if_neg h, if_neg h]
        simp

theorem windowsFrom_eq_map (tp c : Int) (hc : 1 ≤ c) :
    ∀ (n : Nat) (i : Int), tp ≤ i + (n : Int) * c →
      windowsFrom tp c n i =
        (List.range (((tp - i).toNat + c.toNat - 1) / c.toNat)).map
          (fun (k : Nat) => mkChunk tp (i + (k : Int) * c) c) := by
  intro n
  induction n with
  | zero =>
    intro i htp
    push_cast at htp
    have h0 : (tp - i).toNat = 0 := by omega
    have h1 : (0 + c.toNat - 1) / c.toNat = 0 := Nat.div_eq_of_lt (by omega)
    simp only [windowsFrom, h0, h1, List.range_zero, List.map_nil]
  | succ n ih =>
    intro i htp
    have hsplit : ((n + 1 : Nat) : Int) * c = (n : Int) * c + c := by
      push_cast
      ring
    rw [hsplit] at htp
    by_cases h : i < tp
    · simp only [windowsFrom, if_pos h]
      have hr1 : 1 ≤ (tp - i).toNat := by omega
      have hc1 : 1 ≤ c.toNat := by omega
      have hcount : ((tp - i).toNat + c.toNat - 1) / c.toNat
          = (((tp - (i + c)).toNat + c.toNat - 1) / c.toNat) + 1 := by
        have hrc : (tp - (i + c)).toNat = (tp - i).toNat - c.toNat := by omega
        rw [hrc]
        rcases le_or_lt c.toNat (tp - i).toNat with hle | hlt
        · have h1 : (tp - i).toNat - c.toNat + c.toNat - 1 = (tp - i).toNat - 1 := by
            omega
          have h2 : (tp - i).toNat + c.toNat - 1 = ((tp - i).toNat - 1) + c.toNat := by
            omega
          rw [h1, h2, Nat.add_div_right _ (by omega)]
        · have h1 : (tp - i).toNat - c.toNat = 0 := by omega
          have h2 : (0 + c.toNat - 1) / c.toNat = 0 := Nat.div_eq_of_lt (by omega)
          rw [h1, h2]
          have h3 : (tp - i).toNat + c.toNat - 1 = ((tp - i).toNat - 1) + c.toNat := by
            omega
          rw [h3, Nat.add_div_right _ (by omega), Nat.div_eq_of_lt (by omega)]
      rw [hcount, List.range_succ_eq_map, List.map_cons]
      congr 1
      · simp
      · rw [ih (i + c) (by omega), List.map_map]
        apply List.map_congr_left
        intro k _
        simp only [Function.comp]
        congr 1
        push_cast
        ring
    · simp only [windowsFrom, if_neg h]
      have h0 : (tp - i).toNat = 0 := by omega
      have h1 : (0 + c.toNat - 1) / c.toNat = 0 := Nat.div_eq_of_lt (by omega)
      simp only [h0, h1, List.range_zero, List.map_nil]

theorem splitByChunks_eq_chunkWindows {tp c : Int} (h0 : 0 ≤ tp) (hc : 1 ≤ c) :
    splitByChunks tp c = some (chunkWindows tp c) := by
  have hmul : tp ≤ 0 + (tp.toNat : Int) * c := by
    have h1 : (tp.toNat : Int) * 1 ≤ (tp.toNat : Int) * c :=
      mul_le_mul_of_nonneg_left hc (by positivity)
    omega
  rw [splitByChunks, chunkLoop_eq_windowsFrom tp c hc tp.toNat (tp.toNat + 1) 0 []
    (by omega) hmul, windowsFrom_eq_map tp c hc tp.toNat 0 hmul]
  simp [chunkWindows]

/-- C2: in chunk mode, a `totalPages`-page document split with a positive
`chunkSize` produces exactly `⌈totalPages / chunkSize⌉` outputs, the
`k`-th covering the window of `chunkSize` pages starting at page
`k * chunkSize` (0-based, final window possibly shorter), labeled
`"start-end"` with 1-based inclusive bounds; for 10 pages and chunk size
3 this gives 4 outputs labeled `"1-3","4-6","7-9","10-10"`, page counts
at most 3 and summing to 10. -/
theorem splitByChunks_spec :
    (∀ tp c : Int, 0 ≤ tp → 1 ≤ c →
      splitByChunks tp c = some (chunkWindows tp c) ∧
      (chunkWindows tp c).length = (tp.toNat + c.toNat - 1) / c.toNat) ∧
    splitByChunks 10 3 = some
      [⟨[0, 1, 2], "1-3"⟩, ⟨[3, 4, 5], "4-6"⟩, ⟨[6, 7, 8], "7-9"⟩,
        ⟨[9], "10-10"⟩] ∧
    (chunkWindows 10 3).map (fun ch => ch.label) =
      ["1-3", "4-6", "7-9", "10-10"] ∧
    ((chunkWindows 10 3).map (fun ch => ch.pages.length)).sum = 10 ∧
    ∀ ch ∈ chunkWindows 10 3, ch.pages.length ≤ 3 := by
  refine ⟨fun tp c h0 hc => ⟨splitByChunks_eq_chunkWindows h0 hc, ?_⟩,
    by rfl, by rfl, by rfl, by decide⟩
  simp [chunkWindows]

/-- Witness for C2: the general chunk-mode theorem applied to a 10-page
document with chunk size 3. -/
theorem splitByChunks_spec_witness :
    splitByChunks 10 3 = some (chunkWindows 10 3) ∧
    (chunkWindows 10 3).length = (4 : Nat) :=
  ⟨(splitByChunks_spec.1 10 3 (by norm_num) (by norm_num)).1,
   (splitByChunks_spec.1 10 3 (by norm_num) (by norm_num)).2⟩

/-! ## The chunk loop with non-positive chunk size -/

theorem chunkLoop_nonpos_none :
    ∀ (fuel : Nat) (tp c i : Int) (acc : List PdfChunk),
      0 < tp → c ≤ 0 → i ≤ 0 → chunkLoop tp c fuel i acc = none := by
  intro fuel
  induction fuel with
  | zero => intro tp c i acc _ _ _; rfl
  | succ f ih =>
    intro tp c i acc htp hc hi
    simp only [chunkLoop]
    rw [if_pos (by omega)]
    exact ih tp c (i + c) _ htp hc (by omega)

/-- C4 (divergence of the source): with `chunkSize ≤ 0` the chunk loop of
the source exhausts every amount of fuel — `i` never increases past
`totalPages`, so the `for` loop never terminates; the split operation
neither rejects the request nor produces any output.  Shown at the
failing inputs `chunkSize = 0` and `chunkSize = -1` on a 10-page
document. -/
theorem splitByChunks_nonpositive_diverges :
    (∀ fuel : Nat, ∀ acc : List PdfChunk, chunkLoop 10 0 fuel 0 acc = none) ∧
    (∀ fuel : Nat, ∀ acc : List PdfChunk, chunkLoop 10 (-1) fuel 0 acc = none) ∧
    splitByChunks 10 0 = none :=
  ⟨fun fuel acc => chunkLoop_nonpos_none fuel 10 0 0 acc (by norm_num)
      (by norm_num) (by norm_num),
   fun fuel acc => chunkLoop_nonpos_none fuel 10 (-1) 0 acc (by norm_num)
      (by norm_num) (by norm_num),
   chunkLoop_nonpos_none _ 10 0 0 [] (by norm_num) (by norm_num) (by norm_num)⟩

/-! ## Range-mode splitting -/

/-- C5: in range mode one output is produced per page group, in group
order; each output contains exactly that group's pages converted to
0-based indices in their stored order, labeled `"p"` for singleton groups
and `"first-last"` otherwise; for a 10-page document and spec
`"1-3,5,7-10"` this yields exactly 3 outputs labeled
`"1-3"`, `"5"`, `"7-10"`. -/
theorem splitByRanges_spec :
    (∀ (s : String) (tp : Int) (pages : List Int) (chunks : List PdfChunk),
      parsePageRanges s tp = Except.ok pages →
      splitByRanges s tp = Except.ok chunks →
      chunks.length = (groupConsecutivePages pages).length ∧
      ∀ (k : Nat), chunks.get? k =
        ((groupConsecutivePages pages).get? k).map (fun g =>
          { pages := g.map (fun p => p - 1)
            label :=
              if g.length = 1 then toString g.headI
              else toString g.headI ++ "-" ++ toString g.getLastI })) ∧
    splitByRanges "1-3,5,7-10" 10 =
      Except.ok [⟨[0, 1, 2], "1-3"⟩, ⟨[4], "5"⟩, ⟨[6, 7, 8, 9], "7-10"⟩] ∧
    (((splitByRanges "1-3,5,7-10" 10).map (fun cs => cs.map (fun c => c.label)))
      = Except.ok ["1-3", "5", "7-10"]) := by
  refine ⟨?_, by rfl, by rfl⟩
  intro s tp pages chunks hparse hsplit
  rw [splitByRanges, hparse] at hsplit
  simp only [Except.map] at hsplit
  injection hsplit with hsplit
  subst hsplit
  refine ⟨List.length_map _ _, fun k => ?_⟩
  rw [List.get?_eq_getElem?, List.get?_eq_getElem?, List.getElem?_map]
  rfl

/-- Witness for C5: the general range-mode theorem applied to the
concrete spec `"1-3,5,7-10"` on a 10-page document. -/
theorem splitByRanges_spec_witness :
    ([⟨[0, 1, 2], "1-3"⟩, ⟨[4], "5"⟩, ⟨[6, 7, 8, 9], "7-10"⟩] :
        List PdfChunk).length =
      (groupConsecutivePages [1, 2, 3, 5, 7, 8, 9, 10]).length :=
  (splitByRanges_spec.1 "1-3,5,7-10" 10 [1, 2, 3, 5, 7, 8, 9, 10]
    [⟨[0, 1, 2], "1-3"⟩, ⟨[4], "5"⟩, ⟨[6, 7, 8, 9], "7-10"⟩]
    (by rfl) (by rfl)).1

/-- C7: a validation error from the range parser short-circuits
range-mode splitting: the same error propagates out of `splitByRanges`
(so no output document data is ever produced), and the item's `execute`
body throws the error message without pushing any record. -/
theorem splitByRanges_error_shortcircuit :
    ∀ (s : String) (tp : Int) (e : ParseError),
      parsePageRanges s tp = Except.error e →
      splitByRanges s tp = Except.error e ∧
      (∀ it : WorkItem, it.hasBinary = true → it.loadOk = true →
        it.operation = "split" → it.splitMode = "pageRanges" →
        it.pageRanges = s → ((it.doc.pageCount : Int) = tp) →
        processItem it = some (Except.error (ParseError.message e))) := by
  intro s tp e hparse
  have hr : splitByRanges s tp = Except.error e := by
    rw [splitByRanges, hparse]
    rfl
  refine ⟨hr, fun it h1 h2 h3 h4 h5 h6 => ?_⟩
  rw [processItem]
  rw [if_neg (by simp [h1]), if_neg (by simp [h2]), if_neg (by simp [h3]),
    if_pos h3, if_neg (by simp [h4]), if_pos h4]
  rw [h5, h6, hr]

/-- Witness for C7: the short-circuit theorem applied to the rejected
spec `"5-2"` on a 10-page document. -/
theorem splitByRanges_error_shortcircuit_witness :
    splitByRanges "5-2" 10 = Except.error (ParseError.invalidRange "5-2" 10) :=
  (splitByRanges_error_shortcircuit "5-2" 10
    (ParseError.invalidRange "5-2" 10) (by rfl)).1

/-! ## Token validation conditions -/

/-- C6 counterexample: the claim says any non-integer token such as
`"2.5"` is rejected, but the source parses tokens with JavaScript
`parseInt`, which reads the longest leading digit prefix: `"2.5"` parses
to `2` and, being within bounds, is accepted. -/
theorem parsePageRanges_fractional_accepted :
    parsePageRanges "2.5" 10 = Except.ok [2] := by rfl

/-- C6 (amended): a token containing `-` fails with `InvalidRange`
exactly when `parseInt` of either of its first two `-`-separated parts
yields NaN, or `start < 1`, or `end > totalPages`, or `start > end`; a
token without `-` fails with `InvalidPage` exactly when `parseInt` of the
token yields NaN, or the parsed value is `< 1` or `> totalPages` — where
`parseInt` reads the longest leading integer prefix, so a fractional
token such as `"2.5"` parses to `2` and is accepted when in bounds.  In
particular `parsePageRanges "5-2" 10` fails with `InvalidRange` and
`parsePageRanges "11" 10` fails with `InvalidPage`. -/
theorem parseToken_error_conditions :
    (∀ (t : String) (tp : Int), jsIncludes '-' t = true →
      (parseToken t tp = Except.error (ParseError.invalidRange t tp) ↔
        (((jsSplit '-' t).map (fun n => jsParseInt (jsTrim n))).getD 0 none
            = none ∨
         ((jsSplit '-' t).map (fun n => jsParseInt (jsTrim n))).getD 1 none
            = none ∨
         ∃ s e : Int,
           ((jsSplit '-' t).map (fun n => jsParseInt (jsTrim n))).getD 0 none
              = some s ∧
           ((jsSplit '-' t).map (fun n => jsParseInt (jsTrim n))).getD 1 none
              = some e ∧
           (s < 1 ∨ e > tp ∨ s > e)))) ∧
    (∀ (t : String) (tp : Int), jsIncludes '-' t = false →
      (parseToken t tp = Except.error (ParseError.invalidPage t tp) ↔
        (jsParseInt t = none ∨
         ∃ p : Int, jsParseInt t = some p ∧ (p < 1 ∨ p > tp)))) ∧
    parsePageRanges "5-2" 10 =
      Except.error (ParseError.invalidRange "5-2" 10) ∧
    parsePageRanges "11" 10 =
      Except.error (ParseError.invalidPage "11" 10) ∧
    jsParseInt "2.5" = some 2 ∧ parsePageRanges "2.5" 10 = Except.ok [2] := by
  refine ⟨?_, ?_, by rfl, by rfl, by rfl, by rfl⟩
  · intro t tp hinc
    simp only [parseToken, hinc, if_true]
    rcases h0 : ((jsSplit '-' t).map (fun n => jsParseInt (jsTrim n))).getD 0 none
      with _ | s
    · simp [h0]
    · rcases h1 : ((jsSplit '-' t).map (fun n => jsParseInt (jsTrim n))).getD 1 none
        with _ | e
      · simp [h1]
      · simp only [h0, h1]
        by_cases hcond : s < 1 ∨ e > tp ∨ s > e
        · rw [if_pos hcond]
          exact ⟨fun _ => Or.inr (Or.inr ⟨s, e, rfl, rfl, hcond⟩), fun _ => rfl⟩
        · rw [if_neg hcond]
          constructor
          · intro hcontra
            exact absurd hcontra (by simp)
          · rintro (h | h | ⟨s2, e2, hs2, he2, hc2⟩)
            · exact absurd h (by simp)
            · exact absurd h (by simp)
            · injection hs2 with hs2
              injection he2 with he2
              subst hs2; subst he2
              exact absurd hc2 hcond
  · intro t tp hinc
    simp only [parseToken, hinc, Bool.false_eq_true, if_false]
    rcases hp : jsParseInt t with _ | p
    · simp
    · simp only []
      by_cases hcond : p < 1 ∨ p > tp
      · rw [if_pos hcond]
        exact ⟨fun _ => Or.inr ⟨p, rfl, hcond⟩, fun _ => rfl⟩
      · rw [if_neg hcond]
        constructor
        · intro hcontra
          exact absurd hcontra (by simp)
        · rintro (h | ⟨p2, hp2, hc2⟩)
          · exact absurd h (by simp)
          · injection hp2 with hp2
            subst hp2
            exact absurd hc2 hcond

/-- Witness for C6 (amended): the token conditions applied to the
concrete failing tokens `"5-2"` and `"11"` with 10 total pages. -/
theorem parseToken_error_conditions_witness :
    parseToken "5-2" 10 = Except.error (ParseError.invalidRange "5-2" 10) ∧
    parseToken "11" 10 = Except.error (ParseError.invalidPage "11" 10) :=
  ⟨(parseToken_error_conditions.1 "5-2" 10 (by rfl)).mpr
      (Or.inr (Or.inr ⟨5, 2, by rfl, by rfl, by norm_num⟩)),
   (parseToken_error_conditions.2.1 "11" 10 (by rfl)).mpr
      (Or.inr ⟨11, by rfl, by norm_num⟩)⟩

/-! ## Lemmas about the info extractor -/

theorem mapWithIndex_length (f : Nat → PageModel → PageInfoRec) :
    ∀ (n : Nat) (l : List PageModel), (mapWithIndex f n l).length = l.length := by
  intro n l
  induction l generalizing n with
  | nil => rfl
  | cons p ps ih => simp [mapWithIndex, ih]

theorem mapWithIndex_get? (f : Nat → PageModel → PageInfoRec) :
    ∀ (l : List PageModel) (n k : Nat),
      (mapWithIndex f n l).get? k = (l.get? k).map (f (n + k)) := by
  intro l
  induction l with
  | nil => intro n k; simp [mapWithIndex]
  | cons p ps ih =>
    intro n k
    cases k with
    | zero => simp [mapWithIndex]
    | succ k =>
      have h : n + 1 + k = n + (k + 1) := by omega
      simp only [mapWithIndex, List.get?_cons_succ]
      rw [ih (n + 1) k, h]

/-- C8: the `getInfo` operation always reports the page count, and
returns a `pageDetails` array whose length equals the page count; when
inspecting an individual page fails, that page's entry degrades to the
default record (width 612, height 792, portrait, rotation 0); when
page-level inspection fails entirely, every entry of the array is the
default record (repeated `pageCount` times). -/
theorem extractInfo_pageDetails :
    ∀ doc : PdfDocModel,
      (∀ ps, doc.pagesResult = some ps → ps.length = doc.pageCount) →
      (extractInfo doc).pageCount = doc.pageCount ∧
      (extractInfo doc).pageDetails.length = doc.pageCount ∧
      (doc.pagesResult = none →
        ∀ r ∈ (extractInfo doc).pageDetails,
          r.width = 612 ∧ r.height = 792 ∧
          r.orientation = "portrait" ∧ r.rotation = 0) ∧
      (∀ ps, doc.pagesResult = some ps →
        ∀ (k : Nat) (p : PageModel), ps.get? k = some p → p.size = none →
          (extractInfo doc).pageDetails.get? k = some (defaultPageRec (k + 1))) := by
  intro doc hwf
  refine ⟨rfl, ?_, ?_, ?_⟩
  · rcases hp : doc.pagesResult with _ | ps
    · simp [extractInfo, extractPageInfo, hp]
    · simp [extractInfo, extractPageInfo, hp, mapWithIndex_length, hwf ps hp]
  · intro hp r hr
    simp only [extractInfo, extractPageInfo, hp] at hr
    rw [List.mem_map] at hr
    obtain ⟨i, _, rfl⟩ := hr
    exact ⟨rfl, rfl, rfl, rfl⟩
  · intro ps hp k p hk hsize
    simp only [extractInfo, extractPageInfo, hp]
    rw [mapWithIndex_get?, hk]
    simp [pageRecOf, hsize]

/-- Witness for C8: a 2-page document whose `getPages()` throws still
yields a 2-entry `pageDetails` array. -/
theorem extractInfo_pageDetails_witness :
    (extractInfo ⟨2, none⟩).pageDetails.length = 2 :=
  (extractInfo_pageDetails ⟨2, none⟩ (fun _ h => Option.noConfusion h)).2.1

/-! ## Lemmas about the batch loop -/

theorem execGo_continue :
    ∀ (l : List (Nat × WorkItem)) (acc : List OutputRec),
      (∀ p ∈ l, (processItem p.2).isSome = true) →
      execGo true l acc =
        some (Except.ok (acc ++ (l.map (fun p => itemOutputs p.2)).flatten)) := by
  intro l
  induction l with
  | nil => intro acc _; simp [execGo]
  | cons p rest ih =>
    intro acc hall
    obtain ⟨idx, it⟩ := p
    simp only [execGo]
    rcases hp : processItem it with _ | r
    · exact absurd (hp ▸ hall (idx, it) (List.mem_cons_self _ _)) (by simp)
    · cases r with
      | ok outs =>
        show execGo true rest (acc ++ outs) = _
        rw [ih _ (fun q hq => hall q (List.mem_cons_of_mem _ hq))]
        simp [itemOutputs, hp]
      | error e =>
        show execGo true rest (acc ++ [OutputRec.errorRec e]) = _
        rw [ih _ (fun q hq => hall q (List.mem_cons_of_mem _ hq))]
        simp [itemOutputs, hp]

theorem execGo_failfast :
    ∀ (pre : List WorkItem) (n : Nat) (it : WorkItem) (post : List WorkItem)
      (acc : List OutputRec) (e : String),
      (∀ x ∈ pre, ∃ outs, processItem x = some (Except.ok outs)) →
      processItem it = some (Except.error e) →
      execGo false (List.enumFrom n (pre ++ it :: post)) acc =
        some (Except.error (n + pre.length, e)) := by
  intro pre
  induction pre with
  | nil =>
    intro n it post acc e _ hit
    simp only [List.nil_append, List.enumFrom, execGo, hit]
    simp
  | cons x pre ih =>
    intro n it post acc e hpre hit
    obtain ⟨outs, hx⟩ := hpre x (List.mem_cons_self _ _)
    simp only [List.cons_append, List.enumFrom, execGo, hx]
    show execGo false (List.enumFrom (n + 1) (pre ++ it :: post)) (acc ++ outs) = _
    rw [ih (n + 1) it post _ e
      (fun y hy => hpre y (List.mem_cons_of_mem _ hy)) hit]
    have harith : n + 1 + pre.length = n + (x :: pre).length := by
      simp only [List.length_cons]
      omega
    rw [harith]

/-- C9: item-level failures are isolated.  With continue-on-fail the
batch result is the concatenation of each item's own contribution — a
failing item contributes exactly one inline error record and every other
item is still processed; without continue-on-fail the first failing item
aborts the batch with a structured error carrying that item's index. -/
theorem executeModel_isolation :
    (∀ items : List WorkItem,
      (∀ it ∈ items, (processItem it).isSome = true) →
      executeModel true items =
        some (Except.ok ((items.map itemOutputs).flatten))) ∧
    (∀ (pre : List WorkItem) (it : WorkItem) (post : List WorkItem) (e : String),
      (∀ x ∈ pre, ∃ outs, processItem x = some (Except.ok outs)) →
      processItem it = some (Except.error e) →
      executeModel false (pre ++ it :: post) =
        some (Except.error (pre.length, e))) := by
  constructor
  · intro items hall
    rw [executeModel, execGo_continue _ []]
    · rw [List.nil_append]
      congr 2
      rw [show (fun (p : Nat × WorkItem) => itemOutputs p.2)
          = itemOutputs ∘ Prod.snd from rfl, ← List.map_map,
        List.enumFrom_map_snd]
    · intro p hp
      obtain ⟨h1, h2, h3⟩ := List.mem_enumFrom hp
      rw [h3]
      exact hall _ (List.getElem_mem _)
  · intro pre it post e hpre hit
    rw [executeModel, execGo_failfast pre 0 it post [] e hpre hit]
    simp

/-- Witness for C9: a concrete two-item batch — a healthy `getInfo` item
followed by an item with no binary payload — processed under both
continue-on-fail settings. -/
theorem executeModel_isolation_witness :
    executeModel true [sampleInfoItem, sampleNoBinaryItem] =
      some (Except.ok
        (([sampleInfoItem, sampleNoBinaryItem].map itemOutputs).flatten)) ∧
    executeModel false [sampleNoBinaryItem, sampleInfoItem] =
      some (Except.error (0, "No binary data property 'data' found on item")) :=
  ⟨executeModel_isolation.1 [sampleInfoItem, sampleNoBinaryItem] (by decide),
   executeModel_isolation.2 [] sampleNoBinaryItem [sampleInfoItem] _
     (by intro x hx; cases hx) (by rfl)⟩

/-! ## Unknown operations -/

/-- C10 counterexample: an item whose operation is `"merge"` (neither
`"getInfo"` nor `"split"`) but whose binary property is missing does not
fall through silently — `execute` raises the missing-binary error (here
under fail-fast, as a structured error carrying the item index). -/
theorem executeModel_unknownOp_counterexample :
    executeModel false [unknownOpNoBinaryItem] =
      some (Except.error (0, "No binary data property 'data' found on item")) := by
  rfl

/-- C10 (amended): for every item that passes the binary-property and
document-load checks and whose operation is neither `"getInfo"` nor
`"split"`, `execute` appends no record and raises no error — the
operation dispatch has no default branch — and processing continues with
the remaining items unchanged. -/
theorem processItem_unknown_op_skipped :
    ∀ it : WorkItem, it.hasBinary = true → it.loadOk = true →
      it.operation ≠ "getInfo" → it.operation ≠ "split" →
      processItem it = some (Except.ok []) ∧
      (∀ (cf : Bool) (n : Nat) (rest : List (Nat × WorkItem))
        (acc : List OutputRec),
        execGo cf ((n, it) :: rest) acc = execGo cf rest acc) := by
  intro it h1 h2 h3 h4
  have hp : processItem it = some (Except.ok []) := by
    rw [processItem]
    rw [if_neg (by simp [h1]), if_neg (by simp [h2]), if_neg (by simp [h3]),
      if_neg (by simp [h4])]
  refine ⟨hp, fun cf n rest acc => ?_⟩
  simp [execGo, hp]

/-- Witness for C10 (amended): the concrete `"merge"` item with its
payload present is skipped without a record or an error. -/
theorem processItem_unknown_op_skipped_witness :
    processItem unknownOpItem = some (Except.ok []) :=
  (processItem_unknown_op_skipped unknownOpItem rfl rfl (by decide)
    (by decide)).1

end PdfLib
